import Mathlib

/-!
Verification of the coordinate kernel (`helpers.ts`) and the complex-number
value type (`Complex.ts`) of the quantum-tensors repository, as a shallow
embedding in Lean.

JavaScript numbers are modelled as unbounded integers (`Int`) where the code
performs integer arithmetic, as exact rationals (`ℚ`) for the complex
arithmetic claims, and as real numbers (`ℝ`) for the transcendental `arg`
function.  JavaScript's `%` on numbers is truncated remainder, modelled by
`Int.tmod`; the expression `(i - i % d) / d` is an exact division and is
modelled by Lean's integer division of the same numerator.  A thrown
exception is modelled by `Option.none`.
-/

/- ------------------------------------------------------------------ -/
/- Coordinate kernel: `helpers.ts`                                    -/
/- ------------------------------------------------------------------ -/

/-- Loop body of `coordsFromIndex`: the source reverses `sizes`, then maps
over it with the running index `i`, taking `coord = i % dimSize` and
`i = (i - coord) / dimSize` at each step.  This function is that map over
the already-reversed size list. -/
def coordsFromIndexGo : Int → List Int → List Int
  | _, [] => []
  | i, d :: ds =>
    let c := Int.tmod i d
    c :: coordsFromIndexGo ((i - c) / d) ds

/-- `coordsFromIndex(index, sizes)` from `helpers.ts`: turns a flat index
into a multi-index (big-endian), by running the remainder loop over the
reversed sizes and reversing the collected coordinates back. -/
def coordsFromIndex (index : Int) (sizes : List Int) : List Int :=
  (coordsFromIndexGo index sizes.reverse).reverse

/-- Loop body of `coordsToIndex`: the source walks the reversed coordinate
and size lists in lockstep, accumulating `res += factor * coord` and then
`factor *= size`. -/
def coordsToIndexGo : List Int → List Int → Int → Int → Int
  | c :: cs, s :: ss, factor, res => coordsToIndexGo cs ss (factor * s) (res + factor * c)
  | _, _, _, res => res

/-- `coordsToIndex(coords, sizes)` from `helpers.ts`: throws (here `none`)
when the two tuples differ in length, otherwise accumulates the big-endian
mixed-radix value over the reversed lists. -/
def coordsToIndex (coords sizes : List Int) : Option Int :=
  if coords.length ≠ sizes.length then none
  else some (coordsToIndexGo coords.reverse sizes.reverse 1 0)

/-- `checkCoordsSizesCompability(coords, sizes)` from `helpers.ts`: throws
(here `none`) on a length mismatch, or when some `coords[i]` is negative or
`>= sizes[i]`; otherwise returns normally (here `some ()`). -/
def checkCoordsSizesCompability (coords sizes : List Int) : Option Unit :=
  if coords.length ≠ sizes.length then none
  else if (coords.zip sizes).all (fun p => decide (0 ≤ p.1) && decide (p.1 < p.2)) then some ()
  else none

/-- The list `[0, 1, ..., n-1]` as integers, i.e. lodash's `_.range(n)`. -/
def intRange (n : Nat) : List Int :=
  (List.range n).map Int.ofNat

/-- `isPermutation(array, n = array.length)` from `helpers.ts`: false when
the length differs from `n`; otherwise the source builds a bucket array
`counts` of length `array.length`, increments `counts[x]` for each element
`x`, and returns `_.every(counts)`.  Bucket `i` of `counts` holds the number
of occurrences of `i` in `array`, modelled here by `List.count`.  A value
outside `[0, array.length)` makes the source return false — a negative `x`
writes a non-index property and an `x >= length` extends the array with a
falsy `NaN`/hole slot — and in both cases some in-range bucket is also left
at zero (there are `length` buckets and at most `length - 1` in-range
values), so checking only the in-range buckets is extensionally faithful. -/
def isPermutation (array : List Int) (n : Nat) : Bool :=
  if array.length ≠ n then false
  else (List.range array.length).all (fun i => array.count (i : Int) != 0)

/-- `indicesComplement(indices, n)` from `helpers.ts`: filters `_.range(n)`
down to the values not included in `indices`, then throws (here `none`)
unless `indices` concatenated with that complement passes `isPermutation`
at its own length. -/
def indicesComplement (indices : List Int) (n : Nat) : Option (List Int) :=
  let res := (intRange n).filter (fun i => !(indices.contains i))
  if isPermutation (indices ++ res) (indices ++ res).length then some res else none

/-- One `forEach` pass of the function returned by `joinCoordsFunc`: write
each value of `vals` into the output array at the position given by the
matching entry of `positions` (`coord[positions[i]] = vals[i]`).  The
unfilled slots of the JavaScript array are modelled as `none`. -/
def writeCoords : List (Option Int) → List Nat → List Int → List (Option Int)
  | arr, p :: ps, v :: vs => writeCoords (arr.set p (some v)) ps vs
  | arr, _, _ => arr

/-- The merge function returned by `joinCoordsFunc(coordIndices,
complementIndices)` from `helpers.ts`, applied to its two arguments: a fresh
array of length `coordIndices.length + complementIndices.length`, filled
first from `coordGroup` at the complement positions and then from
`coordContraction` at the selected positions. -/
def joinCoordsFunc (coordIndices complementIndices : List Nat)
    (coordGroup coordContraction : List Int) : List (Option Int) :=
  writeCoords
    (writeCoords (List.replicate (coordIndices.length + complementIndices.length) none)
      complementIndices coordGroup)
    coordIndices coordContraction

/-- Specification-side description of the merge: position `j` of the full
tuple holds the contraction value whose selected index is `j`, else the
group value whose complement index is `j`, else nothing.  Written from the
spec's words, to be compared with `joinCoordsFunc`. -/
def mergeSpec (coordIndices complementIndices : List Nat)
    (coordGroup coordContraction : List Int) : List (Option Int) :=
  (List.range (coordIndices.length + complementIndices.length)).map (fun j =>
    if j ∈ coordIndices then some (coordContraction.getD (coordIndices.indexOf j) 0)
    else if j ∈ complementIndices then some (coordGroup.getD (complementIndices.indexOf j) 0)
    else none)

/-- Little-endian mixed-radix value of a coordinate list against a size
list: the proof-side normal form of `coordsToIndexGo` on reversed lists. -/
def leVal : List Int → List Int → Int
  | c :: cs, d :: ds => c + d * leVal cs ds
  | _, _ => 0

/- ------------------------------------------------------------------ -/
/- Complex numbers: `Complex.ts`                                      -/
/- ------------------------------------------------------------------ -/

namespace QT

/-- The complex-number value type of `Complex.ts`, with the two
double-precision fields modelled as exact rationals. -/
structure Complex where
  re : ℚ
  im : ℚ
deriving DecidableEq

/-- `abs2()` from `Complex.ts`: squared magnitude `re*re + im*im`. -/
def Complex.abs2 (z : Complex) : ℚ :=
  z.re * z.re + z.im * z.im

/-- `mul(z2)` from `Complex.ts`: schoolbook complex multiplication. -/
def Complex.mul (z1 z2 : Complex) : Complex :=
  ⟨z1.re * z2.re - z1.im * z2.im, z1.re * z2.im + z1.im * z2.re⟩

/-- `mulGauss(z2)` from `Complex.ts`: Gauss's three-multiplication form of
complex multiplication. -/
def Complex.mulGauss (z1 z2 : Complex) : Complex :=
  let k1 := z2.re * (z1.re + z1.im)
  let k2 := z1.re * (z2.im - z2.re)
  let k3 := z1.im * (z2.re + z2.im)
  ⟨k1 - k3, k1 + k2⟩

/-- `div(z2)` from `Complex.ts`: throws (here `none`) when the divisor's
squared magnitude `z2.im*z2.im + z2.re*z2.re` is exactly zero, otherwise
returns the standard complex quotient. -/
def Complex.div (z1 z2 : Complex) : Option Complex :=
  let denom := z2.im * z2.im + z2.re * z2.re
  if denom = 0 then none
  else some ⟨(z1.re * z2.re + z1.im * z2.im) / denom, (z2.re * z1.im - z1.re * z2.im) / denom⟩

end QT

/-- Modelled from the spec: the constant `TAU` imported from
`Constants.ts`, a file not present in the sources; the spec normalizes the
angle "into `[0, 2π)` by adding a full turn when negative", so `TAU` is the
full turn `2π`. -/
noncomputable def TAU : ℝ := 2 * Real.pi

/-- `Math.atan2(y, x)` over the reals: the principal argument of the
complex number `x + i y`, which lies in `(-π, π]`. -/
noncomputable def atan2JS (y x : ℝ) : ℝ :=
  Complex.arg (Complex.mk x y)

/-- `arg()` from `Complex.ts` over the reals: the two-argument arctangent
of `(im, re)`, plus `TAU` when negative. -/
noncomputable def argJS (re im : ℝ) : ℝ :=
  let a := atan2JS im re
  if a < 0 then a + TAU else a

/- ------------------------------------------------------------------ -/
/- Little-endian helper lemmas for the index round trips              -/
/- ------------------------------------------------------------------ -/

theorem coordsToIndexGo_eq : ∀ (cs ds : List Int) (f r : Int),
    coordsToIndexGo cs ds f r = r + f * leVal cs ds
  | [], ds, f, r => by cases ds <;> simp [coordsToIndexGo, leVal]
  | _ :: _, [], f, r => by simp [coordsToIndexGo, leVal]
  | c :: cs, d :: ds, f, r => by
    rw [coordsToIndexGo, coordsToIndexGo_eq cs ds]
    simp only [leVal]
    ring

theorem length_coordsFromIndexGo : ∀ (i : Int) (ds : List Int),
    (coordsFromIndexGo i ds).length = ds.length
  | _, [] => rfl
  | i, _ :: ds => by
    simp only [coordsFromIndexGo, List.length_cons]
    rw [length_coordsFromIndexGo _ ds]

theorem leVal_nonneg {cs ds : List Int}
    (h : List.Forall₂ (fun c d => 0 ≤ c ∧ c < d) cs ds) : 0 ≤ leVal cs ds := by
  induction h with
  | nil => simp [leVal]
  | cons hcd _ ih =>
    simp only [leVal]
    have hd : (0 : Int) ≤ _ := le_trans hcd.1 (le_of_lt hcd.2)
    have := mul_nonneg hd ih
    omega

theorem leVal_coordsFromIndexGo : ∀ (ds : List Int) (i : Int),
    (∀ d ∈ ds, 1 ≤ d) → 0 ≤ i → i < ds.prod →
    leVal (coordsFromIndexGo i ds) ds = i
  | [], i, _, h0, hlt => by
    simp only [List.prod_nil] at hlt
    simp only [coordsFromIndexGo, leVal]
    omega
  | d :: ds, i, hds, h0, hlt => by
    have hd : 1 ≤ d := hds d (List.mem_cons_self d ds)
    have hdne : d ≠ 0 := by omega
    have htm : Int.tmod i d = i % d := Int.tmod_eq_emod h0 (by omega)
    have hsub : i - i % d = d * (i / d) := by
      have := Int.emod_add_ediv i d
      omega
    have hdiv : (i - i % d) / d = i / d := by
      rw [hsub, Int.mul_ediv_cancel_left _ hdne]
    simp only [coordsFromIndexGo, leVal, htm, hdiv]
    rw [leVal_coordsFromIndexGo ds (i / d)
      (fun x hx => hds x (List.mem_cons_of_mem d hx))
      (Int.ediv_nonneg h0 (by omega))
      (by
        rw [Int.ediv_lt_iff_lt_mul (by omega : (0 : Int) < d)]
        calc i < (d :: ds).prod := hlt
        _ = ds.prod * d := by rw [List.prod_cons]; ring)]
    have := Int.emod_add_ediv i d
    omega

theorem coordsFromIndexGo_leVal {cs ds : List Int}
    (h : List.Forall₂ (fun c d => 0 ≤ c ∧ c < d) cs ds) :
    coordsFromIndexGo (leVal cs ds) ds = cs := by
  induction h with
  | nil => rfl
  | @cons c d cs ds hcd htl ih =>
    have hv : 0 ≤ leVal cs ds := leVal_nonneg htl
    have hd : (0 : Int) < d := lt_of_le_of_lt hcd.1 hcd.2
    have hdne : d ≠ 0 := by omega
    simp only [leVal, coordsFromIndexGo]
    have htm : Int.tmod (c + d * leVal cs ds) d = c := by
      rw [Int.tmod_eq_emod (by nlinarith) (by omega),
        Int.add_mul_emod_self_left, Int.emod_eq_of_lt hcd.1 hcd.2]
    rw [htm]
    have hdiv : (c + d * leVal cs ds - c) / d = leVal cs ds := by
      have : c + d * leVal cs ds - c = d * leVal cs ds := by ring
      rw [this, Int.mul_ediv_cancel_left _ hdne]
    rw [hdiv, ih]

/- ------------------------------------------------------------------ -/
/- Claims C1, C2, C10: index round trips and totality                 -/
/- ------------------------------------------------------------------ -/

/-- Claim C1: for every size tuple whose components are all at least 1 and
every index in `[0, product sizes)`, converting the index to coordinates
and back yields the same index. -/
theorem coordsToIndex_coordsFromIndex (sizes : List Int) (index : Int)
    (hsz : ∀ s ∈ sizes, 1 ≤ s) (h0 : 0 ≤ index) (hlt : index < sizes.prod) :
    coordsToIndex (coordsFromIndex index sizes) sizes = some index := by
  have hlen : (coordsFromIndex index sizes).length = sizes.length := by
    simp [coordsFromIndex, length_coordsFromIndexGo]
  rw [coordsToIndex, if_neg (by omega)]
  rw [coordsFromIndex, List.reverse_reverse, coordsToIndexGo_eq]
  rw [leVal_coordsFromIndexGo sizes.reverse index
    (fun d hd => hsz d (List.mem_reverse.mp hd)) h0
    (by rwa [List.prod_reverse])]
  norm_num

/-- Claim C1 witness: the spec's concrete example, index 5 with
sizes [2, 3]. -/
theorem coordsToIndex_coordsFromIndex_witness :
    coordsToIndex (coordsFromIndex 5 [2, 3]) [2, 3] = some 5 :=
  coordsToIndex_coordsFromIndex [2, 3] 5 (by decide) (by decide) (by decide)

theorem checkCoordsSizesCompability_iff (coords sizes : List Int) :
    checkCoordsSizesCompability coords sizes = some () ↔
      List.Forall₂ (fun c s => 0 ≤ c ∧ c < s) coords sizes := by
  rw [List.forall₂_iff_zip]
  constructor
  · intro h
    rw [checkCoordsSizesCompability] at h
    by_cases hlen : coords.length = sizes.length
    · refine ⟨hlen, ?_⟩
      rw [if_neg (by omega)] at h
      by_cases hall : (coords.zip sizes).all
          (fun p => decide (0 ≤ p.1) && decide (p.1 < p.2)) = true
      · intro hab
        have := List.all_eq_true.mp hall _ hab
        simpa using this
      · rw [if_neg hall] at h; exact absurd h (by simp)
    · rw [if_pos (by omega)] at h; exact absurd h (by simp)
  · rintro ⟨hlen, hzip⟩
    rw [checkCoordsSizesCompability, if_neg (by omega), if_pos]
    exact List.all_eq_true.mpr (fun p hp => by
      have := hzip hp
      simpa using this)

/-- Claim C2: for every pair of equal-length tuples with every coordinate
in bounds (i.e. `checkCoordsSizesCompability` succeeds), converting the
coordinates to a flat index and back yields the same coordinates. -/
theorem coordsFromIndex_coordsToIndex (coords sizes : List Int)
    (hc : checkCoordsSizesCompability coords sizes = some ()) :
    ∃ idx, coordsToIndex coords sizes = some idx ∧
      coordsFromIndex idx sizes = coords := by
  have hF := (checkCoordsSizesCompability_iff coords sizes).mp hc
  have hFr : List.Forall₂ (fun c s => 0 ≤ c ∧ c < s) coords.reverse sizes.reverse :=
    List.rel_reverse hF
  have hlen : coords.length = sizes.length := hF.length_eq
  refine ⟨leVal coords.reverse sizes.reverse, ?_, ?_⟩
  · rw [coordsToIndex, if_neg (by omega), coordsToIndexGo_eq]
    norm_num
  · rw [coordsFromIndex, coordsFromIndexGo_leVal hFr, List.reverse_reverse]

/-- Claim C2 witness: the spec's concrete example, coordinates [1, 2] with
sizes [2, 3]. -/
theorem coordsFromIndex_coordsToIndex_witness :
    ∃ idx, coordsToIndex [1, 2] [2, 3] = some idx ∧
      coordsFromIndex idx [2, 3] = [1, 2] :=
  coordsFromIndex_coordsToIndex [1, 2] [2, 3] (by decide)

/-- Claim C10: `coordsToIndex` returns a value exactly when the two tuples
have equal length; coordinates that are negative or out of bounds do not
make it fail. -/
theorem coordsToIndex_total (coords sizes : List Int) :
    (∃ r, coordsToIndex coords sizes = some r) ↔ coords.length = sizes.length := by
  by_cases h : coords.length = sizes.length <;> simp [coordsToIndex, h]

/- ------------------------------------------------------------------ -/
/- Claims C4, C9: isPermutation                                       -/
/- ------------------------------------------------------------------ -/

theorem intRange_nodup (n : Nat) : (intRange n).Nodup :=
  List.Nodup.map (fun _ _ h => Int.ofNat.inj h) (List.nodup_range n)

theorem mem_intRange {a : Int} {n : Nat} :
    a ∈ intRange n ↔ 0 ≤ a ∧ a < (n : Int) := by
  rw [intRange]
  constructor
  · intro h
    obtain ⟨i, hi, rfl⟩ := List.mem_map.mp h
    have := List.mem_range.mp hi
    simp only [Int.ofNat_eq_natCast]
    omega
  · intro h
    refine List.mem_map.mpr ⟨a.toNat, List.mem_range.mpr (by omega), ?_⟩
    simp only [Int.ofNat_eq_natCast]
    omega

theorem count_intRange (a : Int) (n : Nat) :
    (intRange n).count a = if 0 ≤ a ∧ a < (n : Int) then 1 else 0 := by
  by_cases h : 0 ≤ a ∧ a < (n : Int)
  · rw [if_pos h]
    exact List.count_eq_one_of_mem (intRange_nodup n) (mem_intRange.mpr h)
  · rw [if_neg h]
    exact List.count_eq_zero.mpr (fun hm => h (mem_intRange.mp hm))

theorem length_intRange (n : Nat) : (intRange n).length = n := by
  rw [intRange, List.length_map, List.length_range]

theorem isPermutation_eq_true_iff (array : List Int) (n : Nat) :
    isPermutation array n = true ↔
      array.length = n ∧ ∀ i < array.length, array.count (i : Int) ≠ 0 := by
  rw [isPermutation]
  by_cases hlen : array.length = n
  · rw [if_neg (by omega)]
    simp [List.all_eq_true, hlen]
  · rw [if_pos (by omega)]
    simp [hlen]

/-- Claim C4: `isPermutation(array, n)` is true exactly when `array` has
length `n` and its values are each element of `{0, ..., n-1}` exactly once,
i.e. `array` is a permutation of `[0, ..., n-1]`. -/
theorem isPermutation_iff (array : List Int) (n : Nat) :
    isPermutation array n = true ↔
      array.length = n ∧ array.Perm (intRange n) := by
  rw [isPermutation_eq_true_iff]
  constructor
  · rintro ⟨hlen, hcount⟩
    refine ⟨hlen, ?_⟩
    have hle : ((intRange n : List Int) : Multiset Int) ≤ (array : Multiset Int) := by
      rw [Multiset.le_iff_count]
      intro a
      rw [Multiset.coe_count, Multiset.coe_count, count_intRange]
      by_cases h : 0 ≤ a ∧ a < (n : Int)
      · rw [if_pos h]
        have ha : a.toNat < array.length := by omega
        have hc := hcount a.toNat ha
        rw [Int.toNat_of_nonneg h.1] at hc
        omega
      · rw [if_neg h]
        omega
    have hcard : ((intRange n : List Int) : Multiset Int) = (array : Multiset Int) :=
      Multiset.eq_of_le_of_card_le hle
        (by rw [Multiset.coe_card, Multiset.coe_card, length_intRange, hlen])
    exact (Multiset.coe_eq_coe.mp hcard).symm
  · rintro ⟨hlen, hperm⟩
    refine ⟨hlen, fun i hi => ?_⟩
    rw [hperm.count_eq, count_intRange, if_pos ⟨by omega, by omega⟩]
    omega

/-- Claim C9: an array containing a value that is negative or at least the
array's length is never accepted by `isPermutation` at its own length:
some in-range count bucket necessarily stays zero. -/
theorem isPermutation_out_of_range (array : List Int)
    (h : ∃ x ∈ array, x < 0 ∨ (array.length : Int) ≤ x) :
    isPermutation array array.length = false := by
  cases hb : isPermutation array array.length with
  | false => rfl
  | true =>
    exfalso
    obtain ⟨x, hx, hout⟩ := h
    have hperm := ((isPermutation_iff array array.length).mp hb).2
    have hx' := mem_intRange.mp (hperm.subset hx)
    omega

/-- Claim C9 witness: `[0, 5]` contains the out-of-range value 5 and is
rejected. -/
theorem isPermutation_out_of_range_witness :
    isPermutation [0, 5] ([0, 5] : List Int).length = false :=
  isPermutation_out_of_range [0, 5] ⟨5, by decide, Or.inr (by decide)⟩

/- ------------------------------------------------------------------ -/
/- Claim C3: indicesComplement                                        -/
/- ------------------------------------------------------------------ -/

theorem sorted_intRange (n : Nat) : List.Sorted (· < ·) (intRange n) := by
  rw [intRange]
  exact List.Pairwise.map Int.ofNat
    (fun a b h => by simp only [Int.ofNat_eq_natCast]; exact_mod_cast h)
    (List.pairwise_lt_range n)

/-- Claim C3 (amended): whenever `indicesComplement` returns, its result is
the sorted ascending sequence of the values of `{0, ..., n-1}` not present
in `indices`; it succeeds whenever `indices` is duplicate-free with every
value in `[0, n)`, and then `indices` concatenated with the result is a
permutation of `{0, ..., n-1}`; it fails whenever `indices` contains a
duplicate or a negative value.  (An out-of-range value need not make it
fail: see the counterexample.) -/
theorem indicesComplement_spec (indices : List Int) (n : Nat) :
    (∀ res, indicesComplement indices n = some res →
        List.Sorted (· < ·) res ∧
        ∀ k : Int, k ∈ res ↔ 0 ≤ k ∧ k < (n : Int) ∧ k ∉ indices) ∧
    (indices.Nodup → (∀ x ∈ indices, 0 ≤ x ∧ x < (n : Int)) →
        ∃ res, indicesComplement indices n = some res ∧
          (indices ++ res).Perm (intRange n)) ∧
    (¬ indices.Nodup → indicesComplement indices n = none) ∧
    ((∃ x ∈ indices, x < 0) → indicesComplement indices n = none) := by
  set res₀ := (intRange n).filter (fun i => !(indices.contains i)) with hres₀
  have hmem : ∀ k : Int, k ∈ res₀ ↔ 0 ≤ k ∧ k < (n : Int) ∧ k ∉ indices := by
    intro k
    rw [hres₀, List.mem_filter]
    simp [mem_intRange, and_assoc]
  have hnod : res₀.Nodup := (List.filter_sublist _).nodup (intRange_nodup n)
  have hsorted : List.Sorted (· < ·) res₀ := List.Pairwise.filter _ (sorted_intRange n)
  have hB : indicesComplement indices n =
      if isPermutation (indices ++ res₀) (indices ++ res₀).length
      then some res₀ else none := rfl
  have hiff : isPermutation (indices ++ res₀) (indices ++ res₀).length = true ↔
      (indices ++ res₀).Perm (intRange (indices ++ res₀).length) := by
    rw [isPermutation_iff]
    simp
  refine ⟨?_, ?_, ?_, ?_⟩
  · intro res hsome
    rw [hB] at hsome
    by_cases hc : isPermutation (indices ++ res₀) (indices ++ res₀).length = true
    · rw [if_pos hc] at hsome
      obtain rfl : res₀ = res := Option.some.inj hsome
      exact ⟨hsorted, hmem⟩
    · rw [if_neg hc] at hsome
      exact absurd hsome (by simp)
  · intro hnodup hbounds
    have hperm : (indices ++ res₀).Perm (intRange n) := by
      rw [List.perm_iff_count]
      intro a
      rw [List.count_append, count_intRange]
      by_cases ha : a ∈ indices
      · have h1 : indices.count a = 1 := List.count_eq_one_of_mem hnodup ha
        have h0 : res₀.count a = 0 :=
          List.count_eq_zero.mpr (fun hm => ((hmem a).mp hm).2.2 ha)
        have hab := hbounds a ha
        rw [if_pos hab]
        omega
      · have h0 : indices.count a = 0 := List.count_eq_zero.mpr ha
        by_cases hr : 0 ≤ a ∧ a < (n : Int)
        · have h1 : res₀.count a = 1 :=
            List.count_eq_one_of_mem hnod ((hmem a).mpr ⟨hr.1, hr.2, ha⟩)
          rw [if_pos hr]
          omega
        · have h1 : res₀.count a = 0 :=
            List.count_eq_zero.mpr (fun hm => hr ⟨((hmem a).mp hm).1, ((hmem a).mp hm).2.1⟩)
          rw [if_neg hr]
          omega
    have hlen : (indices ++ res₀).length = n := by
      rw [hperm.length_eq, length_intRange]
    have hcond : isPermutation (indices ++ res₀) (indices ++ res₀).length = true := by
      rw [hiff, hlen]
      exact hperm
    exact ⟨res₀, by rw [hB, if_pos hcond], hperm⟩
  · intro hnodup
    rw [hB]
    by_cases hc : isPermutation (indices ++ res₀) (indices ++ res₀).length = true
    · exfalso
      have hnd : (indices ++ res₀).Nodup :=
        ((hiff.mp hc).symm).nodup (intRange_nodup _)
      exact hnodup (List.nodup_append.mp hnd).1
    · rw [if_neg hc]
  · rintro ⟨x, hx, hneg⟩
    rw [hB]
    by_cases hc : isPermutation (indices ++ res₀) (indices ++ res₀).length = true
    · exfalso
      have hx' := mem_intRange.mp ((hiff.mp hc).subset (List.mem_append.mpr (Or.inl hx)))
      omega
    · rw [if_neg hc]

/-- Claim C3 witness: the spec's concrete example `[3, 1]` with `n = 5`;
it succeeds and closes the permutation. -/
theorem indicesComplement_spec_witness :
    ∃ res, indicesComplement [3, 1] 5 = some res ∧
      (([3, 1] : List Int) ++ res).Perm (intRange 5) :=
  (indicesComplement_spec [3, 1] 5).2.1 (by decide) (by decide)

/-- Claim C3 counterexample: the value 1 of `[1]` is out of range for
`n = 1`, yet `indicesComplement` does not fail — it returns `[0]`, because
`[1, 0]` happens to be a permutation of `{0, 1}`. -/
theorem indicesComplement_counterexample :
    (∃ x ∈ ([1] : List Int), ¬(0 ≤ x ∧ x < (1 : Int))) ∧
      indicesComplement [1] 1 = some [0] := by decide

/- ------------------------------------------------------------------ -/
/- Claim C5: joinCoordsFunc                                           -/
/- ------------------------------------------------------------------ -/

theorem length_writeCoords : ∀ (arr : List (Option Int)) (ps : List Nat) (vs : List Int),
    (writeCoords arr ps vs).length = arr.length
  | _, [], _ => rfl
  | _, _ :: _, [] => rfl
  | arr, p :: ps, v :: vs => by
    rw [writeCoords, length_writeCoords, List.length_set]

theorem writeCoords_get_not_mem :
    ∀ (arr : List (Option Int)) (ps : List Nat) (vs : List Int) (j : Nat),
    j ∉ ps → (writeCoords arr ps vs)[j]? = arr[j]?
  | _, [], _, _, _ => rfl
  | _, _ :: _, [], _, _ => rfl
  | arr, p :: ps, v :: vs, j, hj => by
    rw [writeCoords,
      writeCoords_get_not_mem _ ps vs j (fun h => hj (List.mem_cons_of_mem p h)),
      List.getElem?_set,
      if_neg (fun h => hj (by rw [← h]; exact List.mem_cons_self p ps))]

theorem writeCoords_get_mem :
    ∀ (arr : List (Option Int)) (ps : List Nat) (vs : List Int) (j : Nat),
    ps.Nodup → ps.length = vs.length → j ∈ ps → j < arr.length →
    (writeCoords arr ps vs)[j]? = some (some (vs.getD (ps.indexOf j) 0))
  | _, [], _, j, _, _, hmem, _ => absurd hmem (List.not_mem_nil j)
  | _, _ :: _, [], _, _, hlen, _, _ => by simp at hlen
  | arr, p :: ps, v :: vs, j, hnd, hlen, hmem, hlt => by
    rw [writeCoords]
    by_cases hj : j = p
    · subst hj
      rw [List.indexOf_cons_self, List.getD_cons_zero,
        writeCoords_get_not_mem _ ps vs j (List.nodup_cons.mp hnd).1,
        List.getElem?_set, if_pos rfl, if_pos hlt]
    · have hmem' : j ∈ ps := (List.mem_cons.mp hmem).resolve_left hj
      have hidx : List.indexOf j (p :: ps) = List.indexOf j ps + 1 := by
        simp [List.indexOf_cons, Ne.symm hj]
      rw [hidx, List.getD_cons_succ,
        writeCoords_get_mem _ ps vs j (List.nodup_cons.mp hnd).2
          (by simpa using hlen) hmem' (by rwa [List.length_set])]

theorem getD_map_indexOf (l : List Nat) (f : Nat → Int) {k : Nat} (hk : k ∈ l) :
    (l.map f).getD (l.indexOf k) 0 = f k := by
  have hi : l.indexOf k < l.length := List.indexOf_lt_length.mpr hk
  have hget : l[l.indexOf k] = k := by
    have := List.indexOf_get hi
    rwa [List.get_eq_getElem] at this
  rw [List.getD_eq_getElem?_getD, List.getElem?_map, List.getElem?_eq_getElem hi]
  simp [hget]

/-- Claim C5: when the selected indices and the complement indices together
partition `{0, ..., n-1}` and the two coordinate groups have the matching
lengths, the merge function of `joinCoordsFunc` places each group value at
its complement position and each contraction value at its selected
position (the `mergeSpec` description); consequently merging the two
projections of any full coordinate tuple under that partition reproduces
the tuple. -/
theorem joinCoordsFunc_spec (ci comp : List Nat) (grp sel full : List Int)
    (hperm : (comp ++ ci).Perm (List.range (ci.length + comp.length)))
    (hg : grp.length = comp.length) (hs : sel.length = ci.length)
    (hfull : full.length = ci.length + comp.length) :
    joinCoordsFunc ci comp grp sel = mergeSpec ci comp grp sel ∧
    joinCoordsFunc ci comp (comp.map (fun j => full.getD j 0))
        (ci.map (fun j => full.getD j 0)) =
      full.map some := by
  set n := ci.length + comp.length with hn
  have hnd : (comp ++ ci).Nodup := hperm.symm.nodup (List.nodup_range n)
  obtain ⟨hcomp_nd, hci_nd, hdisj⟩ := List.nodup_append.mp hnd
  have hcover : ∀ j, j < n → j ∈ comp ∨ j ∈ ci := by
    intro j hj
    exact List.mem_append.mp (hperm.mem_iff.mpr (List.mem_range.mpr hj))
  have hlt_comp : ∀ j ∈ comp, j < n := by
    intro j hj
    exact List.mem_range.mp (hperm.mem_iff.mp (List.mem_append.mpr (Or.inl hj)))
  have hlt_ci : ∀ j ∈ ci, j < n := by
    intro j hj
    exact List.mem_range.mp (hperm.mem_iff.mp (List.mem_append.mpr (Or.inr hj)))
  have hdisj' : ∀ j ∈ ci, j ∉ comp := fun j hj hc => hdisj hc hj
  have key : ∀ (g s : List Int), g.length = comp.length → s.length = ci.length →
      joinCoordsFunc ci comp g s = mergeSpec ci comp g s := by
    intro g s hgl hsl
    have hinner : ∀ k : Nat,
        (writeCoords (List.replicate n (none : Option Int)) comp g).length = n := by
      intro _
      rw [length_writeCoords, List.length_replicate]
    apply List.ext_getElem?
    intro k
    have hlenL : (joinCoordsFunc ci comp g s).length = n := by
      rw [joinCoordsFunc, length_writeCoords, length_writeCoords, List.length_replicate]
    have hlenR : (mergeSpec ci comp g s).length = n := by
      rw [mergeSpec, List.length_map, List.length_range]
    by_cases hk : k < n
    · have hR : (mergeSpec ci comp g s)[k]? =
          some (if k ∈ ci then some (s.getD (ci.indexOf k) 0)
            else if k ∈ comp then some (g.getD (comp.indexOf k) 0)
            else none) := by
        rw [mergeSpec, List.getElem?_map, List.getElem?_range hk]
        rfl
      rw [hR, joinCoordsFunc]
      by_cases hci : k ∈ ci
      · rw [writeCoords_get_mem _ ci s k hci_nd hsl.symm hci (by rw [hinner k]; exact hk),
          if_pos hci]
      · rw [writeCoords_get_not_mem _ ci s k hci, if_neg hci]
        by_cases hcm : k ∈ comp
        · rw [writeCoords_get_mem _ comp g k hcomp_nd hgl.symm hcm
            (by rw [List.length_replicate]; exact hk), if_pos hcm]
        · rw [writeCoords_get_not_mem _ comp g k hcm, if_neg hcm,
            List.getElem?_replicate, if_pos hk]
    · rw [List.getElem?_eq_none (by omega : (joinCoordsFunc ci comp g s).length ≤ k),
        List.getElem?_eq_none (by omega : (mergeSpec ci comp g s).length ≤ k)]
  refine ⟨key grp sel hg hs, ?_⟩
  rw [key (comp.map (fun j => full.getD j 0)) (ci.map (fun j => full.getD j 0))
    (by rw [List.length_map]) (by rw [List.length_map])]
  apply List.ext_getElem?
  intro k
  by_cases hk : k < n
  · have hkfull : k < full.length := by omega
    have hR : (full.map some)[k]? = some (some (full.getD k 0)) := by
      rw [List.getElem?_map, List.getElem?_eq_getElem hkfull]
      simp [List.getD_eq_getElem?_getD, List.getElem?_eq_getElem hkfull]
    have hL : (mergeSpec ci comp (comp.map (fun j => full.getD j 0))
        (ci.map (fun j => full.getD j 0)))[k]? =
        some (if k ∈ ci then some ((ci.map (fun j => full.getD j 0)).getD (ci.indexOf k) 0)
          else if k ∈ comp then
            some ((comp.map (fun j => full.getD j 0)).getD (comp.indexOf k) 0)
          else none) := by
      rw [mergeSpec, List.getElem?_map, List.getElem?_range hk]
      rfl
    rw [hL, hR]
    by_cases hci : k ∈ ci
    · rw [if_pos hci, getD_map_indexOf ci _ hci]
    · rw [if_neg hci]
      have hcm : k ∈ comp := (hcover k hk).resolve_right hci
      rw [if_pos hcm, getD_map_indexOf comp _ hcm]
  · rw [List.getElem?_eq_none
        (by rw [mergeSpec, List.length_map, List.length_range]; omega),
      List.getElem?_eq_none (by rw [List.length_map]; omega)]

/-- Claim C5 witness: the doc example of `helpers.ts` — selected indices
`[3, 1]`, complement `[0, 2, 4]`, merging `[2, 3, 5]` and `[7, 11]` into
`[2, 11, 3, 7, 5]`. -/
theorem joinCoordsFunc_spec_witness :
    joinCoordsFunc [3, 1] [0, 2, 4] [2, 3, 5] [7, 11] =
        mergeSpec [3, 1] [0, 2, 4] [2, 3, 5] [7, 11] ∧
      joinCoordsFunc [3, 1] [0, 2, 4]
          ([0, 2, 4].map (fun j => ([2, 11, 3, 7, 5] : List Int).getD j 0))
          ([3, 1].map (fun j => ([2, 11, 3, 7, 5] : List Int).getD j 0)) =
        ([2, 11, 3, 7, 5] : List Int).map some :=
  joinCoordsFunc_spec [3, 1] [0, 2, 4] [2, 3, 5] [7, 11] [2, 11, 3, 7, 5]
    (by decide) (by decide) (by decide) (by decide)

/- ------------------------------------------------------------------ -/
/- Claims C6, C7, C8: Complex arithmetic                              -/
/- ------------------------------------------------------------------ -/

/-- Claim C6: `div` fails exactly when the divisor's squared magnitude is
zero; in particular `Complex(1,0).div(Complex(0,0))` fails; and otherwise
it returns the standard complex quotient — the unique value that
multiplied by the divisor gives back the dividend. -/
theorem Complex_div_spec (z1 z2 : QT.Complex) :
    (QT.Complex.div z1 z2 = none ↔ QT.Complex.abs2 z2 = 0) ∧
    QT.Complex.div ⟨1, 0⟩ ⟨0, 0⟩ = none ∧
    (QT.Complex.abs2 z2 ≠ 0 →
      ∃ w, QT.Complex.div z1 z2 = some w ∧ QT.Complex.mul w z2 = z1) := by
  obtain ⟨a, b⟩ := z1
  obtain ⟨c, d⟩ := z2
  have habs : QT.Complex.abs2 ⟨c, d⟩ = d * d + c * c := by
    rw [QT.Complex.abs2]
    ring
  refine ⟨?_, by norm_num [QT.Complex.div], ?_⟩
  · rw [habs]
    by_cases h : d * d + c * c = 0
    · simp [QT.Complex.div, h]
    · simp [QT.Complex.div, h]
  · intro h
    rw [habs] at h
    refine ⟨⟨(a * c + b * d) / (d * d + c * c), (c * b - a * d) / (d * d + c * c)⟩,
      by simp [QT.Complex.div, h], ?_⟩
    rw [QT.Complex.mul, QT.Complex.mk.injEq]
    constructor <;> field_simp <;> ring

/-- Claim C6 witness: dividing 1 + 2i by 3 + 4i succeeds and the quotient
times 3 + 4i is 1 + 2i again. -/
theorem Complex_div_spec_witness :
    ∃ w, QT.Complex.div ⟨1, 2⟩ ⟨3, 4⟩ = some w ∧
      QT.Complex.mul w ⟨3, 4⟩ = ⟨1, 2⟩ :=
  (Complex_div_spec ⟨1, 2⟩ ⟨3, 4⟩).2.2 (by norm_num [QT.Complex.abs2])

/-- Claim C7: the normalized polar angle is never negative and always
strictly below a full turn, for every complex number. -/
theorem argJS_mem_Ico (re im : ℝ) : 0 ≤ argJS re im ∧ argJS re im < TAU := by
  simp only [argJS, atan2JS, TAU]
  have h1 : -Real.pi < Complex.arg (Complex.mk re im) := Complex.neg_pi_lt_arg _
  have h2 : Complex.arg (Complex.mk re im) ≤ Real.pi := Complex.arg_le_pi _
  have hpi : 0 < Real.pi := Real.pi_pos
  by_cases h : Complex.arg (Complex.mk re im) < 0
  · rw [if_pos h]
    constructor <;> linarith
  · rw [if_neg h]
    constructor <;> linarith

/-- Claim C8: Gauss's three-multiplication algorithm computes exactly the
same complex product as schoolbook multiplication, on every pair of
inputs. -/
theorem Complex_mulGauss_eq_mul (z1 z2 : QT.Complex) :
    QT.Complex.mulGauss z1 z2 = QT.Complex.mul z1 z2 := by
  obtain ⟨a, b⟩ := z1
  obtain ⟨c, d⟩ := z2
  rw [QT.Complex.mulGauss, QT.Complex.mul, QT.Complex.mk.injEq]
  constructor <;> ring
